import Mathlib

/-! ## mozcapsicum: path redirection, handle registry and restricted-query caches

A shallow embedding of `src/mozcapsicum.cpp`.

* `std::string` is a `List Char` (a NUL-free byte string; characters are
  compared by code point, which is the byte order of `std::string`).
* `std::map<K, V>` is an association list kept in ascending key order, the
  order in which a range-`for` visits it.
* Calls into the operating system (`openat`, `cap_rights_limit`, `readlinkat`,
  the real `sysctl`, the real `devname_r`) are parameters of the functions
  that make them.
* `find_relative` is recursive through symbolic links without a depth bound;
  the embedding carries a recursion budget and returns `none` when the budget
  is exhausted.
-/

namespace Mozcapsicum

/-! ## Strings -/

/-- A `std::string`. -/
abbrev Str := List Char

/-- The value `std::string::npos`, the largest `size_t`. -/
def npos : Nat := 2 ^ 64 - 1

/-- Subtraction of two `size_t` values, wrapping modulo `2 ^ 64`. -/
def size_sub (a b : Nat) : Nat := (a % 2 ^ 64 + 2 ^ 64 - b % 2 ^ 64) % 2 ^ 64

/-- The call `s.substr(pos, n)` for `pos <= s.size()`. -/
def substr (s : Str) (pos n : Nat) : Str := (s.drop pos).take n

/-- The call `s.substr(pos)`. -/
def substr_from (s : Str) (pos : Nat) : Str := s.drop pos

/-- The call `s.find_last_of(c)`: the index of the last `c`, or `npos`. -/
def find_last_of (s : Str) (c : Char) : Nat :=
  let i := s.reverse.indexOf c
  if i < s.length then s.length - 1 - i else npos

/-- The order `operator<` of `std::string`: lexicographic on the bytes. -/
def string_lt : Str → Str → Bool
  | [], [] => false
  | [], _ :: _ => true
  | _ :: _, [] => false
  | a :: as, b :: bs =>
    if a.toNat < b.toNat then true
    else if b.toNat < a.toNat then false
    else string_lt as bs

/-- Source `ends_with`: compares `ending` reversed against the start of
`value` reversed. -/
def ends_with (value ending : Str) : Bool :=
  if ending.length > value.length then false
  else ending.reverse == value.reverse.take ending.length

/-- Source `starts_with`: compares `starting` against the start of `value`. -/
def starts_with (value starting : Str) : Bool :=
  if starting.length > value.length then false
  else starting == value.take starting.length

/-! ## `std::map` -/

/-- A `std::map<K, V>`, as its entries in iteration order. -/
abbrev Map (κ υ : Type) := List (κ × υ)

/-- The call `m.find(k)`: the value stored under `k`, if any. -/
def map_find {κ υ : Type} [DecidableEq κ] (m : Map κ υ) (k : κ) : Option υ :=
  match m with
  | [] => none
  | (k', v) :: rest => if k' = k then some v else map_find rest k

/-- The call `m.count(k)`. -/
def map_count {κ υ : Type} [DecidableEq κ] (m : Map κ υ) (k : κ) : Nat :=
  match map_find m k with
  | some _ => 1
  | none => 0

/-- Places a new entry at its position in key order `lt`. -/
def map_insert_sorted {κ υ : Type} (lt : κ → κ → Bool) (m : Map κ υ) (k : κ) (v : υ) :
    Map κ υ :=
  match m with
  | [] => [(k, v)]
  | (k', v') :: rest =>
    if lt k' k then (k', v') :: map_insert_sorted lt rest k v
    else (k, v) :: (k', v') :: rest

/-- The call `m.emplace(k, v)`: inserts only when no entry has key `k`. -/
def map_emplace {κ υ : Type} [DecidableEq κ] (lt : κ → κ → Bool) (m : Map κ υ)
    (k : κ) (v : υ) : Map κ υ :=
  if map_count m k = 0 then map_insert_sorted lt m k v else m

/-- The statement `m[k] = v`: inserts, or overwrites the entry with key `k`. -/
def map_assign {κ υ : Type} [DecidableEq κ] (lt : κ → κ → Bool) (m : Map κ υ)
    (k : κ) (v : υ) : Map κ υ :=
  match m with
  | [] => [(k, v)]
  | (k', v') :: rest =>
    if k' = k then (k, v) :: rest
    else if lt k' k then (k', v') :: map_assign lt rest k v
    else (k, v) :: (k', v') :: rest

/-- The invariant of a `std::map`: keys strictly ascending in iteration order. -/
def map_sorted {κ υ : Type} (lt : κ → κ → Bool) (m : Map κ υ) : Prop :=
  m.Pairwise (fun a b => lt a.1 b.1 = true)

/-! ## Path resolver -/

/-- The constant `AT_FDCWD` of FreeBSD's `<fcntl.h>`. -/
def AT_FDCWD : Int := -100

/-- The result of `readlinkat(fd, relpath.c_str(), link, PATH_MAX)`: `none`
when the call returns `-1`, otherwise the string left in the zero-filled
buffer `link`. -/
abbrev Readlinkat := Int → Str → Option Str

/-- The local `dirprefix` of `find_relative`: the registered path, with `/`
appended unless it already ends with one. -/
def dirprefix (first : Str) : Str :=
  if !ends_with first ['/'] then first ++ ['/'] else first

/-- The argument of the recursive call for a link starting with `..`. -/
def dotdot_target (first link : Str) : Str :=
  let dirpath := first
  let dirpath :=
    if ends_with ( dirprefix first) ['/'] then substr dirpath 0 (size_sub dirpath.length 1)
    else dirpath
  substr dirpath 0 (find_last_of dirpath '/') ++ link.drop 2

/-- The loop of `find_relative` over the entries of `dir_fds` still to visit;
`self` stands for the recursive calls. -/
def find_relative_loop (self : Str → Option (Int × Str)) (readlinkat : Readlinkat)
    (path : Str) : Map Str Int → Option (Int × Str)
  | [] => some (AT_FDCWD, path)
  | val :: rest =>
    if path = val.1 then some (val.2, ['.'])
    else if starts_with path ( dirprefix val.1) then
      let relpath := substr_from path ( dirprefix val.1).length
      match readlinkat val.2 relpath with
      | some link =>
        if link.get? 0 = some '.' && link.get? 1 = some '.' then
          self (dotdot_target val.1 link)
        else self link
      | none => some (val.2, relpath)
    else find_relative_loop self readlinkat path rest

/-- Source `find_relative`, with a budget on the depth of recursion. -/
def find_relative (dir_fds : Map Str Int) (readlinkat : Readlinkat) :
    Nat → Str → Option (Int × Str)
  | 0, _ => none
  | fuel + 1, path =>
    find_relative_loop (find_relative dir_fds readlinkat fuel) readlinkat path dir_fds

/-- The registration at which the loop of `find_relative` stops for `path`:
the first entry, in iteration order, that equals `path` or whose `dirprefix`
starts it. -/
def matched_registration (dir_fds : Map Str Int) (path : Str) : Option (Str × Int) :=
  dir_fds.find? (fun val => decide (path = val.1) || starts_with path ( dirprefix val.1))

/-- Spec wording of the parent of a registered path: the path, written with
or without a trailing `/`, with its final path segment stripped. -/
def parent (d : Str) : Str :=
  let d := if d.getLast? = some '/' then d.dropLast else d
  ((d.reverse.dropWhile (fun c => c != '/')).drop 1).reverse

/-! ## Rights policy and handle registry -/

/-- Source `enum class Rights`. -/
inductive Rights
  | Unrestricted
  | DataFiles
  | IPCSockets
  | GPU
  deriving DecidableEq

/-- The capability rights of `<sys/capsicum.h>` that `apply_rights` names. -/
inductive Cap
  | CAP_LOOKUP
  | CAP_READ
  | CAP_WRITE
  | CAP_SEEK
  | CAP_MMAP
  | CAP_FSTAT
  | CAP_FSTATFS
  | CAP_FCNTL
  | CAP_CONNECTAT
  | CAP_MKDIRAT
  | CAP_IOCTL
  deriving DecidableEq

/-- The system calls made while preopening: `openat(AT_FDCWD, path, flags)`
and `cap_rights_limit(fd, &r)`, each giving its return value. -/
structure Sys where
  openat : Str → Int → Int
  cap_rights_limit : Int → List Cap → Int

/-- Source `apply_rights`. The return value of `cap_fcntls_limit` in the
`DataFiles` case is discarded by the source and is not modelled. -/
def apply_rights (sys : Sys) (fd : Int) (rights : Rights) : Bool :=
  match rights with
  | Rights.Unrestricted => true
  | Rights.DataFiles =>
    decide (sys.cap_rights_limit fd
      [Cap.CAP_LOOKUP, Cap.CAP_READ, Cap.CAP_SEEK, Cap.CAP_MMAP, Cap.CAP_FSTAT,
       Cap.CAP_FSTATFS, Cap.CAP_FCNTL] ≥ 0)
  | Rights.IPCSockets =>
    decide (sys.cap_rights_limit fd
      [Cap.CAP_LOOKUP, Cap.CAP_CONNECTAT, Cap.CAP_READ, Cap.CAP_WRITE, Cap.CAP_SEEK,
       Cap.CAP_FSTAT, Cap.CAP_FSTATFS, Cap.CAP_MKDIRAT] ≥ 0)
  | Rights.GPU =>
    decide (sys.cap_rights_limit fd
      [Cap.CAP_LOOKUP, Cap.CAP_READ, Cap.CAP_WRITE, Cap.CAP_SEEK, Cap.CAP_MMAP,
       Cap.CAP_IOCTL, Cap.CAP_FCNTL, Cap.CAP_FSTAT, Cap.CAP_FSTATFS] ≥ 0)

/-- The process state the preopen operations act on: the two registries and
the descriptors currently open in the process. -/
structure World where
  dir_fds : Map Str Int
  file_fds : Map Str Int
  open_fds : List Int

/-- The flags `O_DIRECTORY | O_CLOEXEC` of FreeBSD's `<fcntl.h>`. -/
def O_DIRECTORY_O_CLOEXEC : Int := Int.ofNat (0x20000 ||| 0x100000)

/-- Source `preopen_dir`: the returned flag and the state after the call. -/
def preopen_dir (sys : Sys) (path : Str) (rights : Rights) (w : World) : Bool × World :=
  let fd := sys.openat path O_DIRECTORY_O_CLOEXEC
  if fd < 0 then (false, w)
  else
    let opened : World := { w with open_fds := fd :: w.open_fds }
    if !apply_rights sys fd rights then
      (false, { opened with open_fds := opened.open_fds.erase fd })
    else
      (true, { opened with dir_fds := map_emplace string_lt opened.dir_fds path fd })

/-- Source `preopen_file`: the returned flag and the state after the call. -/
def preopen_file (sys : Sys) (path : Str) (flags : Int) (rights : Rights) (w : World) :
    Bool × World :=
  let fd := sys.openat path flags
  if fd < 0 then (false, w)
  else
    let opened : World := { w with open_fds := fd :: w.open_fds }
    if !apply_rights sys fd rights then
      (false, { opened with open_fds := opened.open_fds.erase fd })
    else
      (true, { opened with file_fds := map_emplace string_lt opened.file_fds path fd })

/-- One preopen call of the start-up phase, with the system it ran against. -/
inductive Call
  | dir (sys : Sys) (path : Str) (rights : Rights)
  | file (sys : Sys) (path : Str) (flags : Int) (rights : Rights)

/-- The state after one call. -/
def Call.run (c : Call) (w : World) : World :=
  match c with
  | Call.dir sys path rights => (preopen_dir sys path rights w).2
  | Call.file sys path flags rights => (preopen_file sys path flags rights w).2

/-- The state after a sequence of calls, first call first. -/
def run_calls (calls : List Call) (w : World) : World :=
  calls.foldl (fun w c => c.run w) w

/-- The state of a process that has preopened nothing. -/
def World.empty : World := { dir_fds := [], file_fds := [], open_fds := [] }

/-- The call `c` stored descriptor `fd` under `path` in the directory
registry after `apply_rights` returned success on it. -/
def Call.granted_dir (c : Call) (path : Str) (fd : Int) : Prop :=
  match c with
  | Call.dir sys p rights =>
    p = path ∧ sys.openat p O_DIRECTORY_O_CLOEXEC = fd ∧ 0 ≤ fd ∧ apply_rights sys fd rights = true
  | Call.file _ _ _ _ => False

/-- The call `c` stored descriptor `fd` under `path` in the file registry
after `apply_rights` returned success on it. -/
def Call.granted_file (c : Call) (path : Str) (fd : Int) : Prop :=
  match c with
  | Call.dir _ _ _ => False
  | Call.file sys p flags rights =>
    p = path ∧ sys.openat p flags = fd ∧ 0 ≤ fd ∧ apply_rights sys fd rights = true

/-! ## Restricted-query cache -/

/-- What an intercepted `sysctl` / `sysctlbyname` call does. -/
inductive SysctlResult
  /-- The value returned by the real implementation is returned. -/
  | real (ret : Int)
  /-- The call `memcpy(oldp, &val[0], n)` is made and `0` returned. -/
  | copied (n : Nat)
  /-- The store `*oldlenp = n` is made and `0` returned. -/
  | length (n : Nat)
  /-- The variable `errno` is set to `EPERM` and `-1` returned. -/
  | eperm
  /-- The null pointer `oldlenp` is dereferenced. -/
  | fault
  deriving DecidableEq

/-- Source `sysctlbyname`. `name` and `oldlenp` are `none` for a null pointer;
`oldlenp` holds the value `*oldlenp`; `real_ret` is what the real
`sysctlbyname` returns for the same arguments. -/
def sysctlbyname (sysctl_by_name_cache : Map Str (List Nat)) (real_ret : Int)
    (name : Option Str) (oldp_null : Bool) (oldlenp : Option Nat) (newp_null : Bool) :
    SysctlResult :=
  match newp_null, name with
  | true, some key =>
    if map_count sysctl_by_name_cache key ≠ 0 then
      match map_find sysctl_by_name_cache key with
      | some val =>
        match oldlenp with
        | some oldlen =>
          if !oldp_null then SysctlResult.copied (max oldlen val.length)
          else SysctlResult.length val.length
        | none => SysctlResult.fault
      | none => SysctlResult.real real_ret
    else SysctlResult.real real_ret
  | _, _ => SysctlResult.real real_ret

/-- Source `sysctl`. `name` is the array of `namelen` integers, `none` for a
null pointer; `oldlenp` holds the value `*oldlenp`, `none` for a null pointer;
`real_ret` is what the real `sysctl` returns for the same arguments. -/
def sysctl (sysctl_by_mib_cache : Map (List Int) (List Nat)) (real_ret : Int)
    (name : Option (List Int)) (oldp_null : Bool) (oldlenp : Option Nat) (newp_null : Bool) :
    SysctlResult :=
  if real_ret = 0 then SysctlResult.real 0
  else
    match newp_null, name, oldlenp with
    | true, some key, some oldlen =>
      if key.length > 1 then
        if map_count sysctl_by_mib_cache key ≠ 0 then
          match map_find sysctl_by_mib_cache key with
          | some val =>
            if !oldp_null then SysctlResult.copied (max oldlen val.length)
            else SysctlResult.length val.length
          | none => SysctlResult.eperm
        else SysctlResult.eperm
      else SysctlResult.eperm
    | _, _, _ => SysctlResult.eperm

/-- The key `dev + type` of `devname_cache`, computed in the 64-bit unsigned
`dev_t` of FreeBSD. -/
def devname_key (dev type : Nat) : Nat := (dev + type) % 2 ^ 64

/-- The order of the keys of `devname_cache`. -/
def dev_lt (a b : Nat) : Bool := decide (a < b)

/-- The real `devname_r(dev, type, buf, len)`: the name written to `buf`, or
`none` when it returns a null pointer. -/
abbrev RealDevname := Nat → Nat → Nat → Option Str

/-- The call `strlcpy(buf, src, len)`: the string left in `buf`, whose
content before the call is `buf`. -/
def strlcpy (buf src : Str) (len : Nat) : Str :=
  if len = 0 then buf else src.take (len - 1)

/-- Source `devname_r`: the string left in `buf`, or `none` for a null
return. -/
def devname_r (devname_cache : Map Nat Str) (real_devname_r : RealDevname)
    (dev type : Nat) (buf : Str) (len : Nat) : Option Str :=
  if map_count devname_cache (devname_key dev type) ≠ 0 then
    match map_find devname_cache (devname_key dev type) with
    | some name => some (strlcpy buf name len)
    | none => real_devname_r dev type len
  else real_devname_r dev type len

/-- Source `precache_devname`: the returned flag and the cache after the
call. `SPECNAMELEN` is the constant of `<sys/param.h>`. -/
def precache_devname (SPECNAMELEN : Nat) (devname_cache : Map Nat Str)
    (real_devname_r : RealDevname) (dev type : Nat) : Bool × Map Nat Str :=
  match devname_r devname_cache real_devname_r dev type [] SPECNAMELEN with
  | none => (false, devname_cache)
  | some dname => (true, map_assign dev_lt devname_cache (devname_key dev type) dname)

/-! ## Concrete registries and link tables -/

/-- The directory registry after preopening `/dev/dri` as descriptor 4 and
then `/dev` as descriptor 3. -/
def nested_registry : Map Str Int :=
  map_emplace string_lt (map_emplace string_lt [] "/dev/dri".toList 4) "/dev".toList 3

/-- The directory registry after preopening `/tmp/` as descriptor 3. -/
def slash_registry : Map Str Int := map_emplace string_lt [] "/tmp/".toList 3

/-- The directory registry after preopening `/dev/dri` as descriptor 3. -/
def dri_registry : Map Str Int := map_emplace string_lt [] "/dev/dri".toList 3

/-- A file system without symbolic links. -/
def no_links : Readlinkat := fun _ _ => none

/-- A file system in which `card0` under descriptor 3 links to `../drm/0`. -/
def card0_link : Readlinkat := fun fd relpath =>
  if fd = 3 ∧ relpath = "card0".toList then some "../drm/0".toList else none

/-- The directory registry after preopening `/dev/dri/` as descriptor 3. -/
def dri_slash_registry : Map Str Int := map_emplace string_lt [] "/dev/dri/".toList 3

/-- The directory registry after preopening the relative path `dri` as
descriptor 3. -/
def relative_registry : Map Str Int := map_emplace string_lt [] "dri".toList 3

/-- A system in which every open yields descriptor 5 and every
`cap_rights_limit` fails. -/
def limit_fails : Sys := { openat := fun _ _ => 5, cap_rights_limit := fun _ _ => -1 }

/-- A system in which every open yields descriptor 4 and every
`cap_rights_limit` succeeds. -/
def opens_four : Sys := { openat := fun _ _ => 4, cap_rights_limit := fun _ _ => 0 }

/-- A process that has preopened `/dev/dri` as descriptor 3 and the file
`/etc/machine-id` as descriptor 6. -/
def dri_world : World :=
  { dir_fds := dri_registry,
    file_fds := map_emplace string_lt [] "/etc/machine-id".toList 6,
    open_fds := [6, 3] }

/-- The MIB-keyed cache holding the 8-byte answer of `hw.physmem`, MIB
`{6, 5}`. -/
def physmem_by_mib : Map (List Int) (List Nat) := [([6, 5], [0, 0, 0, 0, 2, 0, 0, 0])]

/-- The name-keyed cache holding the 8-byte answer of `hw.physmem`. -/
def physmem_by_name : Map Str (List Nat) := [("hw.physmem".toList, [0, 0, 0, 0, 2, 0, 0, 0])]

/-- The file type `S_IFCHR` of `<sys/stat.h>`. -/
def S_IFCHR : Nat := 0x2000

/-- The file type `S_IFBLK` of `<sys/stat.h>`. -/
def S_IFBLK : Nat := 0x6000

/-- A real `devname_r` that names character device `0x4005` `ttyv5` and
block device `5` `da0`. -/
def two_devices : RealDevname := fun dev type _ =>
  if dev = 0x4005 ∧ type = S_IFCHR then some "ttyv5".toList
  else if dev = 5 ∧ type = S_IFBLK then some "da0".toList
  else none

/-! ## Strings: the source predicates against prefix and suffix -/

theorem starts_with_iff (value starting : Str) :
    starts_with value starting = true ↔ starting <+: value := by
  unfold starts_with
  split
  · rename_i h
    constructor
    · intro hf; cases hf
    · intro hp
      have := hp.length_le
      omega
  · simp only [beq_iff_eq]
    exact List.prefix_iff_eq_take.symm

theorem ends_with_iff (value ending : Str) :
    ends_with value ending = true ↔ ending <:+ value := by
  unfold ends_with
  split
  · rename_i h
    constructor
    · intro hf; cases hf
    · intro hp
      have := hp.length_le
      omega
  · simp only [beq_iff_eq]
    rw [← List.reverse_prefix, List.prefix_iff_eq_take, List.length_reverse]

theorem ends_with_slash_iff (value : Str) :
    ends_with value ['/'] = true ↔ value.getLast? = some '/' := by
  rw [ends_with_iff]
  constructor
  · rintro ⟨t, rfl⟩
    simp
  · intro h
    exact ⟨value.dropLast, List.dropLast_append_getLast? _ (by simp [h])⟩

theorem dirprefix_eq (first : Str) :
    dirprefix first = if first.getLast? = some '/' then first else first ++ ['/'] := by
  unfold dirprefix
  by_cases h : first.getLast? = some '/'
  · simp [h, (ends_with_slash_iff first).2 h]
  · have : ends_with first ['/'] = false := by
      cases hb : ends_with first ['/']
      · rfl
      · exact absurd ((ends_with_slash_iff first).1 hb) h
    simp [h, this]

theorem dirprefix_getLast (first : Str) : ( dirprefix first).getLast? = some '/' := by
  rw [dirprefix_eq]
  split
  · assumption
  · simp

theorem dirprefix_ends_with_slash (first : Str) : ends_with ( dirprefix first) ['/'] = true :=
  (ends_with_slash_iff _).2 (dirprefix_getLast first)

theorem dirprefix_extends (first : Str) : first <+: dirprefix first := by
  rw [dirprefix_eq]
  split
  · exact List.prefix_refl _
  · exact List.prefix_append _ _

/-! ## The loop of `find_relative` -/

theorem find_relative_loop_skip (self : Str → Option (Int × Str)) (readlinkat : Readlinkat)
    (path : Str) (val : Str × Int) (rest : Map Str Int)
    (hne : path ≠ val.1) (hpre : ¬ dirprefix val.1 <+: path) :
    find_relative_loop self readlinkat path (val :: rest)
      = find_relative_loop self readlinkat path rest := by
  have hs : starts_with path ( dirprefix val.1) = false := by
    cases hb : starts_with path ( dirprefix val.1)
    · rfl
    · exact absurd ((starts_with_iff _ _).1 hb) hpre
  simp [find_relative_loop, hne, hs]

theorem find_relative_loop_unmatched (self : Str → Option (Int × Str))
    (readlinkat : Readlinkat) (path : Str) (dir_fds : Map Str Int)
    (h : ∀ val ∈ dir_fds, path ≠ val.1 ∧ ¬ dirprefix val.1 <+: path) :
    find_relative_loop self readlinkat path dir_fds = some (AT_FDCWD, path) := by
  induction dir_fds with
  | nil => rfl
  | cons val rest ih =>
    have hv := h val (List.mem_cons_self _ _)
    rw [find_relative_loop_skip self readlinkat path val rest hv.1 hv.2]
    exact ih (fun v hv => h v (List.mem_cons_of_mem _ hv))

theorem find_relative_loop_exact (self : Str → Option (Int × Str)) (readlinkat : Readlinkat)
    (val : Str × Int) (rest : Map Str Int) :
    find_relative_loop self readlinkat val.1 (val :: rest) = some (val.2, ['.']) := by
  simp [find_relative_loop]

theorem find_relative_loop_under (self : Str → Option (Int × Str)) (readlinkat : Readlinkat)
    (path : Str) (val : Str × Int) (rest : Map Str Int)
    (hne : path ≠ val.1) (hpre : dirprefix val.1 <+: path) :
    find_relative_loop self readlinkat path (val :: rest)
      = match readlinkat val.2 (path.drop ( dirprefix val.1).length) with
        | some link =>
          if link.get? 0 = some '.' && link.get? 1 = some '.' then
            self (dotdot_target val.1 link)
          else self link
        | none => some (val.2, path.drop ( dirprefix val.1).length) := by
  have hs : starts_with path ( dirprefix val.1) = true := (starts_with_iff _ _).2 hpre
  simp [find_relative_loop, hne, hs, substr_from]


theorem find_relative_loop_matched (self : Str → Option (Int × Str)) (readlinkat : Readlinkat)
    (path : Str) (dir_fds : Map Str Int) :
    find_relative_loop self readlinkat path dir_fds
      = match matched_registration dir_fds path with
        | none => some (AT_FDCWD, path)
        | some val =>
          if path = val.1 then some (val.2, ['.'])
          else
            match readlinkat val.2 (path.drop ( dirprefix val.1).length) with
            | some link =>
              if link.get? 0 = some '.' && link.get? 1 = some '.' then
                self (dotdot_target val.1 link)
              else self link
            | none => some (val.2, path.drop ( dirprefix val.1).length) := by
  induction dir_fds with
  | nil => rfl
  | cons val rest ih =>
    by_cases hne : path = val.1
    · subst hne
      simp [find_relative_loop, matched_registration]
    · by_cases hs : starts_with path ( dirprefix val.1) = true
      · simp [find_relative_loop, matched_registration, hne, hs, substr_from]
      · have hs' : starts_with path ( dirprefix val.1) = false := by
          simpa using hs
        have : matched_registration (val :: rest) path = matched_registration rest path := by
          simp [matched_registration, List.find?, hne, hs']
        rw [this, ← ih]
        simp [find_relative_loop, hne, hs']

theorem find_relative_loop_mono (self self' : Str → Option (Int × Str))
    (readlinkat : Readlinkat) (path : Str) (dir_fds : Map Str Int) (res : Int × Str)
    (hself : ∀ q r, self q = some r → self' q = some r)
    (h : find_relative_loop self readlinkat path dir_fds = some res) :
    find_relative_loop self' readlinkat path dir_fds = some res := by
  rw [find_relative_loop_matched] at h ⊢
  cases hm : matched_registration dir_fds path with
  | none => simpa [hm] using h
  | some val =>
    simp only [hm] at h ⊢
    by_cases hne : path = val.1
    · simpa [hne] using h
    · simp only [hne, if_false] at h ⊢
      cases hl : readlinkat val.2 (path.drop ( dirprefix val.1).length) with
      | none => simpa [hl] using h
      | some link =>
        simp only [hl] at h ⊢
        split at h
        · rename_i hc
          rw [if_pos hc]
          exact hself _ _ h
        · rename_i hc
          rw [if_neg hc]
          exact hself _ _ h

theorem find_relative_succ (dir_fds : Map Str Int) (readlinkat : Readlinkat) (fuel : Nat) :
    ∀ (path : Str) (res : Int × Str),
      find_relative dir_fds readlinkat fuel path = some res →
      find_relative dir_fds readlinkat (fuel + 1) path = some res := by
  induction fuel with
  | zero => intro path res h; simp [find_relative] at h
  | succ n ih =>
    intro path res h
    rw [find_relative] at h ⊢
    exact find_relative_loop_mono _ _ readlinkat path dir_fds res ih h

theorem find_relative_mono (dir_fds : Map Str Int) (readlinkat : Readlinkat) (n m : Nat)
    (hnm : n ≤ m) (path : Str) (res : Int × Str)
    (h : find_relative dir_fds readlinkat n path = some res) :
    find_relative dir_fds readlinkat m path = some res := by
  induction hnm with
  | refl => exact h
  | step _ ih => exact find_relative_succ dir_fds readlinkat _ path res ih

/-- C2: a path that no registered directory equals, and that no registered
directory path normalized to end with `/` is a prefix of, resolves to the
sentinel `AT_FDCWD` with the path unchanged, for every positive budget. -/
theorem C2_unmatched_path_falls_back (dir_fds : Map Str Int) (readlinkat : Readlinkat)
    (fuel : Nat) (p : Str)
    (hno : ∀ val ∈ dir_fds, val.1 ≠ p ∧ ¬ dirprefix val.1 <+: p) :
    find_relative dir_fds readlinkat (fuel + 1) p = some (AT_FDCWD, p) := by
  rw [find_relative]
  exact find_relative_loop_unmatched _ readlinkat p dir_fds
    (fun val hv => ⟨fun h => (hno val hv).1 h.symm, (hno val hv).2⟩)

/-- C2 at `/dev/driver`, with `/dev/dri` and `/usr/share` registered. -/
theorem C2_unmatched_path_falls_back_witness :
    find_relative [("/dev/dri".toList, 3), ("/usr/share".toList, 4)] (fun _ _ => none) 1
      "/dev/driver".toList = some (AT_FDCWD, "/dev/driver".toList) :=
  C2_unmatched_path_falls_back [("/dev/dri".toList, 3), ("/usr/share".toList, 4)]
    (fun _ _ => none) 0 "/dev/driver".toList (by decide)


/-! ## The order of `std::string` -/

theorem string_lt_irrefl (a : Str) : string_lt a a = false := by
  induction a with
  | nil => rfl
  | cons c cs ih => simp [string_lt, ih]

theorem string_lt_asymm : ∀ (a b : Str), string_lt a b = true → string_lt b a = false
  | [], [], _ => rfl
  | [], _ :: _, _ => rfl
  | _ :: _, [], h => by simp [string_lt] at h
  | a :: as, b :: bs, h => by
    rw [string_lt] at h ⊢
    by_cases h1 : a.toNat < b.toNat
    · have h2 : ¬ b.toNat < a.toNat := by omega
      simp [h1, h2]
    · by_cases h2 : b.toNat < a.toNat
      · simp [h1, h2] at h
      · simp only [h1, h2, if_false] at h ⊢
        exact string_lt_asymm as bs h

theorem string_lt_of_proper_initial : ∀ (a b : Str), a <+: b → a ≠ b → string_lt a b = true
  | [], [], _, hne => absurd rfl hne
  | [], _ :: _, _, _ => rfl
  | _ :: _, [], hp, _ => by simp at hp
  | a :: as, b :: bs, hp, hne => by
    rw [List.cons_prefix_cons] at hp
    obtain ⟨rfl, hp⟩ := hp
    rw [string_lt]
    simp only [lt_self_iff_false, if_false]
    exact string_lt_of_proper_initial as bs hp (fun h => hne (by rw [h]))

/-- A registration other than `d` that matches a path under `d`, without
being nested above `d`, lies below `d`. -/
theorem other_match_extends (d e r : Str) (hne : e ≠ d) (hnest : ¬ dirprefix e <+: d)
    (hm : dirprefix d ++ r = e ∨ dirprefix e <+: dirprefix d ++ r) : d <+: e := by
  rcases hm with hm | hm
  · rw [← hm]
    exact (dirprefix_extends d).trans (List.prefix_append _ _)
  · rcases List.prefix_or_prefix_of_prefix hm (List.prefix_append ( dirprefix d) r) with h | h
    · rw [dirprefix_eq d] at h
      split at h
      · exact absurd h hnest
      · rcases List.prefix_concat_iff.1 h with h | h
        · rw [dirprefix_eq e] at h
          split at h
          · rw [h]; exact List.prefix_append _ _
          · exact absurd (List.append_cancel_right h) hne
        · exact absurd h hnest
    · have hd : d <+: dirprefix e := (dirprefix_extends d).trans h
      rw [dirprefix_eq e] at hd
      split at hd
      · exact hd
      · rcases List.prefix_concat_iff.1 hd with h' | h'
        · exfalso
          apply hnest
          rw [dirprefix_eq e, if_neg (by assumption), h']
        · exact h'

theorem find_relative_loop_registered (self : Str → Option (Int × Str))
    (readlinkat : Readlinkat) (d r : Str) (h : Int) (dir_fds : Map Str Int)
    (hsorted : map_sorted string_lt dir_fds)
    (hreg : (d, h) ∈ dir_fds)
    (hnest : ∀ val ∈ dir_fds, val.1 ≠ d → ¬ dirprefix val.1 <+: d)
    (hr : dirprefix d ++ r ≠ d)
    (hlink : readlinkat h r = none) :
    find_relative_loop self readlinkat ( dirprefix d ++ r) dir_fds = some (h, r) := by
  induction dir_fds with
  | nil => simp at hreg
  | cons val rest ih =>
    unfold map_sorted at hsorted
    rw [List.pairwise_cons] at hsorted
    rcases List.mem_cons.1 hreg with hv | hv
    · subst hv
      rw [find_relative_loop_under self readlinkat ( dirprefix d ++ r) (d, h) rest hr
        (List.prefix_append _ _)]
      simp [hlink]
    · have hlt : string_lt val.1 d = true := hsorted.1 (d, h) hv
      have hne : val.1 ≠ d := by
        intro he
        rw [he, string_lt_irrefl] at hlt
        cases hlt
      have hn := hnest val (List.mem_cons_self _ _) hne
      have hskip : dirprefix d ++ r ≠ val.1 ∧ ¬ dirprefix val.1 <+: dirprefix d ++ r := by
        constructor
        · intro he
          have hp := other_match_extends d val.1 r hne hn (Or.inl he)
          have := string_lt_asymm _ _ (string_lt_of_proper_initial d val.1 hp (fun h => hne h.symm))
          rw [hlt] at this
          cases this
        · intro he
          have hp := other_match_extends d val.1 r hne hn (Or.inr he)
          have := string_lt_asymm _ _ (string_lt_of_proper_initial d val.1 hp (fun h => hne h.symm))
          rw [hlt] at this
          cases this
      rw [find_relative_loop_skip self readlinkat _ val rest hskip.1 hskip.2]
      exact ih hsorted.2 hv (fun v hv' => hnest v (List.mem_cons_of_mem _ hv'))

/-- C1 (amended): in a registry in map order, for a registered directory `d`
with handle `h` that no other registration, normalized to end with `/`, is a
prefix of, and a relative path `r` (not empty when `d` itself ends with `/`)
for which `readlinkat` on `h` reports no link, resolving `d`, normalized to
end with `/`, followed by `r` returns `(h, r)` for every positive budget. -/
theorem C1_registered_prefix_resolves (dir_fds : Map Str Int) (readlinkat : Readlinkat)
    (fuel : Nat) (d r : Str) (h : Int)
    (hsorted : map_sorted string_lt dir_fds)
    (hreg : (d, h) ∈ dir_fds)
    (hnest : ∀ val ∈ dir_fds, val.1 ≠ d → ¬ dirprefix val.1 <+: d)
    (hr : d.getLast? = some '/' → r ≠ [])
    (hlink : readlinkat h r = none) :
    find_relative dir_fds readlinkat (fuel + 1) ( dirprefix d ++ r) = some (h, r)
    ∧ (d.getLast? ≠ some '/' → dirprefix d ++ r = d ++ '/' :: r) := by
  constructor
  · rw [find_relative]
    apply find_relative_loop_registered _ readlinkat d r h dir_fds hsorted hreg hnest _ hlink
    rw [dirprefix_eq]
    split
    · rename_i hs
      intro he
      exact hr hs (List.append_right_eq_self.1 he)
    · intro he
      have := congrArg List.length he
      simp at this
  · intro hs
    rw [dirprefix_eq, if_neg hs]
    simp


/-- C1 (amended) at `/dev` in the registry holding `/dev` and `/dev/dri`, with
relative path `dri/card0` and no links. -/
theorem C1_registered_prefix_resolves_witness :
    find_relative nested_registry no_links (0 + 1) ( dirprefix "/dev".toList ++ "dri/card0".toList)
        = some (3, "dri/card0".toList)
    ∧ (("/dev".toList).getLast? ≠ some '/' →
        dirprefix "/dev".toList ++ "dri/card0".toList = "/dev".toList ++ '/' :: "dri/card0".toList) :=
  C1_registered_prefix_resolves nested_registry no_links 0 "/dev".toList "dri/card0".toList 3
    (by unfold map_sorted; decide) (by decide) (by decide) (by decide) (by decide)

/-- C1 fails as stated at two inputs, both without links. With `/dev` and
`/dev/dri` registered, `/dev/dri` + `/` + `card0` resolves against `/dev`.
With `/tmp/` registered, `/tmp/` + `/` + `a` resolves to `(3, "/a")`. -/
theorem C1_counterexample :
    (map_find nested_registry "/dev/dri".toList = some 4
      ∧ no_links 3 "dri/card0".toList = none
      ∧ find_relative nested_registry no_links 1 ("/dev/dri".toList ++ '/' :: "card0".toList)
          = some (3, "dri/card0".toList)
      ∧ find_relative nested_registry no_links 1 ("/dev/dri".toList ++ '/' :: "card0".toList)
          ≠ some (4, "card0".toList))
    ∧ (map_find slash_registry "/tmp/".toList = some 3
      ∧ no_links 3 "/a".toList = none
      ∧ find_relative slash_registry no_links 1 ("/tmp/".toList ++ '/' :: "a".toList)
          = some (3, "/a".toList)
      ∧ find_relative slash_registry no_links 1 ("/tmp/".toList ++ '/' :: "a".toList)
          ≠ some (3, "a".toList)) := by
  decide

theorem find_relative_loop_own_path (self : Str → Option (Int × Str))
    (readlinkat : Readlinkat) (d : Str) (h : Int) (dir_fds : Map Str Int)
    (hreg : map_find dir_fds d = some h)
    (hnest : ∀ val ∈ dir_fds, val.1 ≠ d → ¬ dirprefix val.1 <+: d) :
    find_relative_loop self readlinkat d dir_fds = some (h, ['.']) := by
  induction dir_fds with
  | nil => simp [map_find] at hreg
  | cons val rest ih =>
    obtain ⟨k, v⟩ := val
    by_cases hk : k = d
    · subst hk
      simp only [map_find, if_true, Option.some.injEq] at hreg
      subst hreg
      exact find_relative_loop_exact self readlinkat (k, v) rest
    · simp only [map_find, hk, if_false] at hreg
      rw [find_relative_loop_skip self readlinkat d (k, v) rest (fun h => hk h.symm)
        (hnest (k, v) (List.mem_cons_self _ _) hk)]
      exact ih hreg (fun v hv => hnest v (List.mem_cons_of_mem _ hv))

/-- C3 (amended): for a registered directory `d` with handle `dir_fds[d]`
that no other registration, normalized to end with `/`, is a prefix of,
resolving `d` itself returns `(dir_fds[d], ".")` for every positive budget. -/
theorem C3_own_path_resolves_to_dot (dir_fds : Map Str Int) (readlinkat : Readlinkat)
    (fuel : Nat) (d : Str) (h : Int)
    (hreg : map_find dir_fds d = some h)
    (hnest : ∀ val ∈ dir_fds, val.1 ≠ d → ¬ dirprefix val.1 <+: d) :
    find_relative dir_fds readlinkat (fuel + 1) d = some (h, ['.']) := by
  rw [find_relative]
  exact find_relative_loop_own_path _ readlinkat d h dir_fds hreg hnest

/-- C3 (amended) at `/dev` in the registry holding `/dev` and `/dev/dri`. -/
theorem C3_own_path_resolves_to_dot_witness :
    find_relative nested_registry card0_link (0 + 1) "/dev".toList = some (3, ['.']) :=
  C3_own_path_resolves_to_dot nested_registry card0_link 0 "/dev".toList 3
    (by decide) (by decide)

/-- C3 fails as stated with `/dev` and `/dev/dri` both registered and no
links: resolving `/dev/dri` stops at `/dev`, visited first, and returns
`(3, "dri")` rather than `(4, ".")`. -/
theorem C3_counterexample :
    map_find nested_registry "/dev/dri".toList = some 4
    ∧ find_relative nested_registry no_links 1 "/dev/dri".toList = some (3, "dri".toList)
    ∧ find_relative nested_registry no_links 1 "/dev/dri".toList ≠ some (4, ['.']) := by
  decide

/-- C4: a registered directory `d` that does not end with `/` does not match
a path `p` other than `d` in which `d` is not followed by `/`, in particular
one that only shares a partial segment with `d`: the loop passes over the
registration, and with `d` the only registration `p` resolves to the sentinel
`AT_FDCWD` with `p` unchanged. -/
theorem C4_match_on_segment_boundary (self : Str → Option (Int × Str))
    (readlinkat : Readlinkat) (fuel : Nat) (d p : Str) (h : Int) (rest : Map Str Int)
    (hne : p ≠ d) (hfollow : ¬ (d ++ ['/']) <+: p) (hend : d.getLast? ≠ some '/') :
    matched_registration [(d, h)] p = none
    ∧ find_relative_loop self readlinkat p ((d, h) :: rest)
        = find_relative_loop self readlinkat p rest
    ∧ find_relative [(d, h)] readlinkat (fuel + 1) p = some (AT_FDCWD, p) := by
  have hpre : ¬ dirprefix d <+: p := by
    rw [dirprefix_eq, if_neg hend]
    exact hfollow
  have hs : starts_with p ( dirprefix d) = false := by
    cases hb : starts_with p ( dirprefix d)
    · rfl
    · exact absurd ((starts_with_iff _ _).1 hb) hpre
  refine ⟨?_, find_relative_loop_skip self readlinkat p (d, h) rest hne hpre, ?_⟩
  · simp [matched_registration, hne, hs]
  · rw [find_relative, find_relative_loop_skip _ readlinkat p (d, h) [] hne hpre]
    rfl

/-- C4 at the registration `/dev/dri` and the path `/dev/driver`, which has
`/dev/dri` as a string prefix. -/
theorem C4_match_on_segment_boundary_witness :
    "/dev/dri".toList <+: "/dev/driver".toList
    ∧ matched_registration [("/dev/dri".toList, 3)] "/dev/driver".toList = none
    ∧ find_relative_loop (fun _ => none) card0_link "/dev/driver".toList
          (("/dev/dri".toList, 3) :: [("/usr".toList, 4)])
        = find_relative_loop (fun _ => none) card0_link "/dev/driver".toList [("/usr".toList, 4)]
    ∧ find_relative [("/dev/dri".toList, 3)] card0_link (0 + 1) "/dev/driver".toList
        = some (AT_FDCWD, "/dev/driver".toList) :=
  ⟨by decide, C4_match_on_segment_boundary (fun _ => none) card0_link 0 "/dev/dri".toList
    "/dev/driver".toList 3 [("/usr".toList, 4)] (by decide) (by decide) (by decide)⟩


theorem matched_registration_none (dir_fds : Map Str Int) (path : Str)
    (h : matched_registration dir_fds path = none) :
    ∀ val ∈ dir_fds, path ≠ val.1 ∧ ¬ dirprefix val.1 <+: path := by
  intro val hv
  have := List.find?_eq_none.1 h val hv
  simp only [Bool.or_eq_true, decide_eq_true_eq, not_or] at this
  exact ⟨this.1, fun hp => this.2 ((starts_with_iff _ _).2 hp)⟩

theorem matched_registration_mem (dir_fds : Map Str Int) (path : Str) (val : Str × Int)
    (h : matched_registration dir_fds path = some val) : val ∈ dir_fds :=
  List.mem_of_find?_eq_some h

/-- C5 (amended): when the handles of the registry are descriptors (not
negative) and `find_relative` returns the sentinel `AT_FDCWD` for input `p`,
the returned relative path matches no registration, and it is `p` unchanged
unless a link was followed at `p`, that is unless `readlinkat` reported a link
for the relative path looked up under the registration matched by `p`. -/
theorem C5_sentinel_returns_unmatched_path (dir_fds : Map Str Int) (readlinkat : Readlinkat)
    (fuel : Nat) (p q : Str)
    (hfd : ∀ val ∈ dir_fds, 0 ≤ val.2)
    (hres : find_relative dir_fds readlinkat fuel p = some (AT_FDCWD, q)) :
    (∀ val ∈ dir_fds, q ≠ val.1 ∧ ¬ dirprefix val.1 <+: q)
    ∧ (q = p ∨ ∃ val, matched_registration dir_fds p = some val ∧ p ≠ val.1
        ∧ (readlinkat val.2 (p.drop ( dirprefix val.1).length)).isSome = true) := by
  induction fuel generalizing p with
  | zero => simp [find_relative] at hres
  | succ n ih =>
    rw [find_relative, find_relative_loop_matched] at hres
    cases hm : matched_registration dir_fds p with
    | none =>
      simp only [hm, Option.some.injEq, Prod.mk.injEq, true_and] at hres
      subst hres
      exact ⟨matched_registration_none dir_fds p hm, Or.inl rfl⟩
    | some val =>
      have hmem := matched_registration_mem dir_fds p val hm
      have hpos := hfd val hmem
      have hsent : val.2 ≠ AT_FDCWD := by
        intro he
        rw [he] at hpos
        exact absurd hpos (by decide)
      simp only [hm] at hres
      by_cases hne : p = val.1
      · simp only [hne, if_true, Option.some.injEq, Prod.mk.injEq] at hres
        exact absurd hres.1 hsent
      · simp only [hne, if_false] at hres
        cases hl : readlinkat val.2 (p.drop ( dirprefix val.1).length) with
        | none =>
          simp only [hl, Option.some.injEq, Prod.mk.injEq] at hres
          exact absurd hres.1 hsent
        | some link =>
          simp only [hl] at hres
          refine ⟨?_, Or.inr ⟨val, rfl, hne, by simp [hl]⟩⟩
          split at hres
          · exact (ih _ hres).1
          · exact (ih _ hres).1

/-- C5 (amended) at `/dev/dri/card0`, a link to `../drm/0`, with only
`/dev/dri` registered. -/
theorem C5_sentinel_returns_unmatched_path_witness :
    (∀ val ∈ dri_registry, "/dev/drm/0".toList ≠ val.1
        ∧ ¬ dirprefix val.1 <+: "/dev/drm/0".toList)
    ∧ ("/dev/drm/0".toList = "/dev/dri/card0".toList
      ∨ ∃ val, matched_registration dri_registry "/dev/dri/card0".toList = some val
        ∧ "/dev/dri/card0".toList ≠ val.1
        ∧ (card0_link val.2 ("/dev/dri/card0".toList.drop ( dirprefix val.1).length)).isSome
            = true) :=
  C5_sentinel_returns_unmatched_path dri_registry card0_link 2 "/dev/dri/card0".toList
    "/dev/drm/0".toList (by decide) (by decide)

/-- C5 fails as stated with `/dev/dri` registered as descriptor 3 and
`card0` under it a link to `../drm/0`: resolving `/dev/dri/card0` returns the
sentinel with the rewritten path `/dev/drm/0`, not the input. -/
theorem C5_counterexample :
    find_relative dri_registry card0_link 2 "/dev/dri/card0".toList
        = some (AT_FDCWD, "/dev/drm/0".toList)
    ∧ "/dev/drm/0".toList ≠ "/dev/dri/card0".toList := by
  decide


/-! ## The parent of a registered path -/

/-- A string with everything from its last `c` on removed (empty when it
has no `c`). -/
theorem strip_last_segment_rev (c : Char) (r : Str) (h : r.indexOf c < r.length) :
    r.reverse.take (r.length - 1 - r.indexOf c)
      = ((r.dropWhile (fun x => x != c)).drop 1).reverse := by
  induction r with
  | nil => simp at h
  | cons a r ih =>
    by_cases hac : a = c
    · subst hac
      simp [List.indexOf_cons_self]
    · have hi : (a :: r).indexOf c = r.indexOf c + 1 := by
        rw [List.indexOf_cons_ne _ hac]
      rw [hi] at h ⊢
      have h' : r.indexOf c < r.length := by simpa using h
      have hd : (a :: r).dropWhile (fun x => x != c) = r.dropWhile (fun x => x != c) := by
        have hb : (a != c) = true := by simp [hac]
        rw [List.dropWhile_cons, hb]
        rfl
      rw [hd, ← ih h']
      simp only [List.reverse_cons, List.length_cons]
      rw [List.take_append_of_le_length (by simp)]
      congr 1
      omega

theorem take_find_last_of (s : Str) (hin : '/' ∈ s) :
    substr s 0 (find_last_of s '/')
      = ((s.reverse.dropWhile (fun x => x != '/')).drop 1).reverse := by
  have hi : s.reverse.indexOf '/' < s.reverse.length :=
    List.indexOf_lt_length.2 (List.mem_reverse.2 hin)
  have := strip_last_segment_rev '/' s.reverse hi
  simp only [List.reverse_reverse, List.length_reverse] at this hi
  simp only [substr, find_last_of, List.drop_zero, hi, if_true]
  exact this


theorem size_sub_one (n : Nat) (h0 : 0 < n) (hn : n < 2 ^ 64) : size_sub n 1 = n - 1 := by
  unfold size_sub
  norm_num at hn ⊢
  omega

theorem dotdot_target_dropLast (d link : Str) (h0 : d ≠ []) (hlen : d.length < 2 ^ 64) :
    dotdot_target d link
      = substr d.dropLast 0 (find_last_of d.dropLast '/') ++ link.drop 2 := by
  have hpos : 0 < d.length := List.length_pos.2 h0
  simp only [dotdot_target, dirprefix_ends_with_slash, if_true, substr, List.drop_zero,
    size_sub_one d.length hpos hlen, List.dropLast_eq_take]

theorem parent_of_absolute (t : Str) :
    parent ('/' :: t)
      = if t = [] then []
        else ((('/' :: t).dropLast.reverse.dropWhile (fun x => x != '/')).drop 1).reverse := by
  by_cases ht : t = []
  · subst ht
    simp [parent]
  · rw [if_neg ht]
    by_cases hs : ('/' :: t).getLast? = some '/'
    · simp only [parent, hs, if_true]
    · simp only [parent, hs, if_false]
      obtain ⟨c, hc⟩ : ∃ c, ('/' :: t).getLast? = some c := by
        cases hg : ('/' :: t).getLast? with
        | none => simp at hg
        | some c => exact ⟨c, rfl⟩
      have hd : ('/' :: t).dropLast ++ [c] = '/' :: t :=
        List.dropLast_append_getLast? _ (by simp [hc])
      have hne : c ≠ '/' := by
        intro he
        rw [he] at hc
        exact hs hc
      have hb : (c != '/') = true := by simp [hne]
      conv_lhs => rw [← hd]
      rw [List.reverse_append, List.reverse_singleton, List.singleton_append,
        List.dropWhile_cons, hb]
      rfl

/-- For an absolute registered path the source computes the spec's parent. -/
theorem dotdot_target_eq_parent (d link : Str) (habs : d.head? = some '/')
    (hlen : d.length < 2 ^ 64) :
    dotdot_target d link = parent d ++ link.drop 2 := by
  cases d with
  | nil => simp at habs
  | cons a t =>
    simp only [List.head?_cons, Option.some.injEq] at habs
    subst habs
    rw [dotdot_target_dropLast _ link (by simp) hlen, parent_of_absolute]
    by_cases ht : t = []
    · subst ht
      simp [substr, find_last_of]
    · rw [if_neg ht]
      have hin : '/' ∈ ('/' :: t).dropLast := by
        cases t with
        | nil => exact absurd rfl ht
        | cons b u => simp [List.dropLast]
      rw [take_find_last_of _ hin]


theorem find_relative_dotdot_step (dir_fds : Map Str Int) (readlinkat : Readlinkat)
    (fuel : Nat) (d x rest : Str) (h : Int)
    (hm : matched_registration dir_fds ( dirprefix d ++ x) = some (d, h))
    (hx : dirprefix d ++ x ≠ d)
    (hlink : readlinkat h x = some ('.' :: '.' :: rest)) :
    find_relative dir_fds readlinkat (fuel + 1) ( dirprefix d ++ x)
      = find_relative dir_fds readlinkat fuel (dotdot_target d ('.' :: '.' :: rest)) := by
  rw [find_relative, find_relative_loop_matched, hm]
  simp [hx, hlink]

/-- C6 (amended): for a registered absolute directory `d` (written with or
without a trailing `/`) that is the matched registration for the path made of
`d`, normalized to end with `/`, followed by `x` (not empty when `d` itself
ends with `/`), if `readlinkat` reports that `x` under the handle of `d` is a
link with target `../` + `y`, then resolving that path with one more unit of
budget equals resolving `parent(d)` + `/` + `y`, and the two paths have the
same results over all budgets. -/
theorem C6_dotdot_link_resolves_via_parent (dir_fds : Map Str Int) (readlinkat : Readlinkat)
    (fuel : Nat) (res : Int × Str) (d x y : Str) (h : Int)
    (habs : d.head? = some '/')
    (hlen : d.length < 2 ^ 64)
    (hm : matched_registration dir_fds ( dirprefix d ++ x) = some (d, h))
    (hx : d.getLast? = some '/' → x ≠ [])
    (hlink : readlinkat h x = some ('.' :: '.' :: '/' :: y)) :
    find_relative dir_fds readlinkat (fuel + 1) ( dirprefix d ++ x)
        = find_relative dir_fds readlinkat fuel (parent d ++ '/' :: y)
    ∧ ((∃ n, find_relative dir_fds readlinkat n ( dirprefix d ++ x) = some res)
        ↔ (∃ n, find_relative dir_fds readlinkat n (parent d ++ '/' :: y) = some res))
    ∧ (d.getLast? ≠ some '/' → dirprefix d ++ x = d ++ '/' :: x) := by
  have hne : dirprefix d ++ x ≠ d := by
    rw [dirprefix_eq]
    split
    · rename_i hs
      intro he
      exact hx hs (List.append_right_eq_self.1 he)
    · intro he
      have := congrArg List.length he
      simp at this
  have hstep : ∀ n, find_relative dir_fds readlinkat (n + 1) ( dirprefix d ++ x)
      = find_relative dir_fds readlinkat n (parent d ++ '/' :: y) := by
    intro n
    rw [find_relative_dotdot_step dir_fds readlinkat n d x ('/' :: y) h hm hne hlink,
      dotdot_target_eq_parent d _ habs hlen]
    rfl
  refine ⟨hstep fuel, ⟨?_, ?_⟩, ?_⟩
  · rintro ⟨n, hn⟩
    cases n with
    | zero => simp [find_relative] at hn
    | succ n => exact ⟨n, by rw [← hstep n]; exact hn⟩
  · rintro ⟨n, hn⟩
    exact ⟨n + 1, by rw [hstep n]; exact hn⟩
  · intro hs
    rw [dirprefix_eq, if_neg hs]
    simp

/-- C6 (amended) at `/dev/dri/card0`, a link to `../drm/0`, with `/dev/dri`
registered. -/
theorem C6_dotdot_link_resolves_via_parent_witness :
    find_relative dri_registry card0_link (1 + 1) ( dirprefix "/dev/dri".toList ++ "card0".toList)
        = find_relative dri_registry card0_link 1 (parent "/dev/dri".toList ++ '/' :: "drm/0".toList)
    ∧ ((∃ n, find_relative dri_registry card0_link n
              ( dirprefix "/dev/dri".toList ++ "card0".toList)
            = some (AT_FDCWD, "/dev/drm/0".toList))
        ↔ (∃ n, find_relative dri_registry card0_link n
              (parent "/dev/dri".toList ++ '/' :: "drm/0".toList)
            = some (AT_FDCWD, "/dev/drm/0".toList)))
    ∧ (("/dev/dri".toList).getLast? ≠ some '/' →
        dirprefix "/dev/dri".toList ++ "card0".toList
          = "/dev/dri".toList ++ '/' :: "card0".toList) :=
  C6_dotdot_link_resolves_via_parent dri_registry card0_link 1 (AT_FDCWD, "/dev/drm/0".toList)
    "/dev/dri".toList "card0".toList "drm/0".toList 3
    (by decide) (by decide) (by decide) (by decide) (by decide)

/-- C6 fails as stated at two inputs, in both of which `card0` under
descriptor 3 links to `../drm/0`. With `/dev/dri/` registered, the path
`/dev/dri/` + `/` + `card0` looks up `/card0`, which is no link, and returns
`(3, "/card0")`, while `parent(d)` + `/drm/0` resolves to the sentinel. With
the relative path `dri` registered, `dri/card0` resolves like `dr/drm/0`, not
like `parent(d)` + `/drm/0`, which is `/drm/0`. -/
theorem C6_counterexample :
    (matched_registration dri_slash_registry ("/dev/dri/".toList ++ '/' :: "card0".toList)
        = some ("/dev/dri/".toList, 3)
      ∧ card0_link 3 "card0".toList = some ("../".toList ++ "drm/0".toList)
      ∧ find_relative dri_slash_registry card0_link 2
          ("/dev/dri/".toList ++ '/' :: "card0".toList) = some (3, "/card0".toList)
      ∧ find_relative dri_slash_registry card0_link 2
          (parent "/dev/dri/".toList ++ '/' :: "drm/0".toList)
          = some (AT_FDCWD, "/dev/drm/0".toList))
    ∧ (matched_registration relative_registry ("dri".toList ++ '/' :: "card0".toList)
        = some ("dri".toList, 3)
      ∧ find_relative relative_registry card0_link 2 ("dri".toList ++ '/' :: "card0".toList)
          = some (AT_FDCWD, "dr/drm/0".toList)
      ∧ find_relative relative_registry card0_link 2
          (parent "dri".toList ++ '/' :: "drm/0".toList) = some (AT_FDCWD, "/drm/0".toList)) := by
  decide


/-! ## The order of the registry is kept by `emplace` -/

theorem char_eq_of_toNat (a b : Char) (h1 : ¬ a.toNat < b.toNat) (h2 : ¬ b.toNat < a.toNat) :
    a = b := by
  apply Char.ext
  apply UInt32.ext
  have : a.toNat = b.toNat := by omega
  exact this

theorem string_lt_trans : ∀ (a b c : Str),
    string_lt a b = true → string_lt b c = true → string_lt a c = true
  | [], _, [], _, h2 => by
    cases ‹Str› <;> simp [string_lt] at h2
  | [], _, _ :: _, _, _ => rfl
  | _ :: _, [], _, h1, _ => by simp [string_lt] at h1
  | _ :: _, _ :: _, [], _, h2 => by simp [string_lt] at h2
  | a :: as, b :: bs, c :: cs, h1, h2 => by
    rw [string_lt] at h1 h2 ⊢
    by_cases hab : a.toNat < b.toNat
    · by_cases hbc : b.toNat < c.toNat
      · have : a.toNat < c.toNat := by omega
        simp [this]
      · by_cases hcb : c.toNat < b.toNat
        · simp [hbc, hcb] at h2
        · have : a.toNat < c.toNat := by omega
          simp [this]
    · by_cases hba : b.toNat < a.toNat
      · simp [hab, hba] at h1
      · simp only [hab, hba, if_false] at h1
        by_cases hbc : b.toNat < c.toNat
        · have : a.toNat < c.toNat := by omega
          simp [this]
        · by_cases hcb : c.toNat < b.toNat
          · simp [hbc, hcb] at h2
          · simp only [hbc, hcb, if_false] at h2
            have e1 : ¬ a.toNat < c.toNat := by omega
            have e2 : ¬ c.toNat < a.toNat := by omega
            simp only [e1, e2, if_false]
            exact string_lt_trans as bs cs h1 h2

theorem string_lt_total : ∀ (a b : Str), string_lt a b = false → a ≠ b → string_lt b a = true
  | [], [], _, hne => absurd rfl hne
  | [], _ :: _, h, _ => by simp [string_lt] at h
  | _ :: _, [], _, _ => rfl
  | a :: as, b :: bs, h, hne => by
    rw [string_lt] at h ⊢
    by_cases hab : a.toNat < b.toNat
    · simp [hab] at h
    · by_cases hba : b.toNat < a.toNat
      · simp [hba]
      · simp only [hab, hba, if_false] at h ⊢
        have he := char_eq_of_toNat a b hab hba
        exact string_lt_total as bs h (fun h' => hne (by rw [he, h']))

theorem mem_map_insert_sorted {κ υ : Type} (lt : κ → κ → Bool) (m : Map κ υ) (k : κ) (v : υ)
    (x : κ × υ) : x ∈ map_insert_sorted lt m k v ↔ x = (k, v) ∨ x ∈ m := by
  induction m with
  | nil => simp [map_insert_sorted]
  | cons e rest ih =>
    obtain ⟨k', v'⟩ := e
    unfold map_insert_sorted
    split
    · simp only [List.mem_cons, ih]
      tauto
    · simp only [List.mem_cons]

theorem mem_map_emplace {κ υ : Type} [DecidableEq κ] (lt : κ → κ → Bool) (m : Map κ υ)
    (k : κ) (v : υ) (x : κ × υ) (h : x ∈ map_emplace lt m k v) : x ∈ m ∨ x = (k, v) := by
  unfold map_emplace at h
  split at h
  · rcases (mem_map_insert_sorted lt m k v x).1 h with h | h
    · exact Or.inr h
    · exact Or.inl h
  · exact Or.inl h

theorem map_find_none_of_count {κ υ : Type} [DecidableEq κ] (m : Map κ υ) (k : κ)
    (h : map_count m k = 0) : ∀ x ∈ m, x.1 ≠ k := by
  induction m with
  | nil => simp
  | cons e rest ih =>
    obtain ⟨k', v'⟩ := e
    unfold map_count at h
    by_cases hk : k' = k
    · simp [map_find, hk] at h
    · simp only [map_find, hk, if_false] at h
      intro x hx
      rcases List.mem_cons.1 hx with hx | hx
      · rw [hx]; exact hk
      · exact ih h x hx

theorem map_insert_sorted_sorted (m : Map Str Int) (k : Str) (v : Int)
    (hs : map_sorted string_lt m) (hk : ∀ x ∈ m, x.1 ≠ k) :
    map_sorted string_lt (map_insert_sorted string_lt m k v) := by
  induction m with
  | nil => simp [map_insert_sorted, map_sorted]
  | cons e rest ih =>
    obtain ⟨k', v'⟩ := e
    unfold map_sorted at hs ih ⊢
    rw [List.pairwise_cons] at hs
    unfold map_insert_sorted
    split
    · rename_i hlt
      rw [List.pairwise_cons]
      refine ⟨?_, ih hs.2 (fun x hx => hk x (List.mem_cons_of_mem _ hx))⟩
      intro x hx
      rcases (mem_map_insert_sorted string_lt rest k v x).1 hx with hx | hx
      · rw [hx]; exact hlt
      · exact hs.1 x hx
    · rename_i hlt
      have hkk : string_lt k k' = true :=
        string_lt_total k' k (by simpa using hlt) (hk (k', v') (List.mem_cons_self _ _))
      rw [List.pairwise_cons, List.pairwise_cons]
      refine ⟨?_, hs⟩
      intro x hx
      rcases List.mem_cons.1 hx with hx | hx
      · rw [hx]; exact hkk
      · exact string_lt_trans _ _ _ hkk (hs.1 x hx)

/-- The preopen operations keep both registries in map order. -/
theorem map_emplace_sorted (m : Map Str Int) (k : Str) (v : Int)
    (hs : map_sorted string_lt m) : map_sorted string_lt (map_emplace string_lt m k v) := by
  unfold map_emplace
  split
  · rename_i hc
    exact map_insert_sorted_sorted m k v hs (map_find_none_of_count m k hc)
  · exact hs


/-! ## Handle registry -/

theorem preopen_dir_failure (sys : Sys) (path : Str) (rights : Rights) (w : World)
    (h : sys.openat path O_DIRECTORY_O_CLOEXEC < 0
      ∨ apply_rights sys (sys.openat path O_DIRECTORY_O_CLOEXEC) rights = false) :
    preopen_dir sys path rights w = (false, w) := by
  unfold preopen_dir
  by_cases hfd : sys.openat path O_DIRECTORY_O_CLOEXEC < 0
  · simp [hfd]
  · rcases h with h | h
    · exact absurd h hfd
    · simp [hfd, h]

theorem preopen_file_failure (sys : Sys) (path : Str) (flags : Int) (rights : Rights)
    (w : World)
    (h : sys.openat path flags < 0 ∨ apply_rights sys (sys.openat path flags) rights = false) :
    preopen_file sys path flags rights w = (false, w) := by
  unfold preopen_file
  by_cases hfd : sys.openat path flags < 0
  · simp [hfd]
  · rcases h with h | h
    · exact absurd h hfd
    · simp [hfd, h]

theorem call_run_dir_fds (c : Call) (w : World) (p : Str) (fd : Int)
    (h : (p, fd) ∈ (c.run w).dir_fds) : (p, fd) ∈ w.dir_fds ∨ c.granted_dir p fd := by
  cases c with
  | dir sys path rights =>
    simp only [Call.run, preopen_dir] at h
    simp only [Call.granted_dir]
    split at h
    · exact Or.inl h
    · rename_i hfd
      split at h
      · exact Or.inl h
      · rename_i hr
        rcases mem_map_emplace _ _ _ _ _ h with h | h
        · exact Or.inl h
        · simp only [Prod.mk.injEq] at h
          refine Or.inr ⟨h.1.symm, h.2.symm, ?_, ?_⟩
          · rw [h.2]; omega
          · rw [h.2]; simpa using hr
  | file sys path flags rights =>
    simp only [Call.run, preopen_file] at h
    split at h
    · exact Or.inl h
    · split at h
      · exact Or.inl h
      · exact Or.inl h

theorem call_run_file_fds (c : Call) (w : World) (p : Str) (fd : Int)
    (h : (p, fd) ∈ (c.run w).file_fds) : (p, fd) ∈ w.file_fds ∨ c.granted_file p fd := by
  cases c with
  | file sys path flags rights =>
    simp only [Call.run, preopen_file] at h
    simp only [Call.granted_file]
    split at h
    · exact Or.inl h
    · rename_i hfd
      split at h
      · exact Or.inl h
      · rename_i hr
        rcases mem_map_emplace _ _ _ _ _ h with h | h
        · exact Or.inl h
        · simp only [Prod.mk.injEq] at h
          refine Or.inr ⟨h.1.symm, h.2.symm, ?_, ?_⟩
          · rw [h.2]; omega
          · rw [h.2]; simpa using hr
  | dir sys path rights =>
    simp only [Call.run, preopen_dir] at h
    split at h
    · exact Or.inl h
    · split at h
      · exact Or.inl h
      · exact Or.inl h

theorem run_calls_dir_fds (calls : List Call) (w : World) (p : Str) (fd : Int)
    (h : (p, fd) ∈ (run_calls calls w).dir_fds) :
    (p, fd) ∈ w.dir_fds ∨ ∃ c ∈ calls, c.granted_dir p fd := by
  induction calls generalizing w with
  | nil => exact Or.inl h
  | cons c rest ih =>
    simp only [run_calls, List.foldl_cons] at h
    rcases ih (c.run w) h with h | ⟨c', hc', hg⟩
    · rcases call_run_dir_fds c w p fd h with h | h
      · exact Or.inl h
      · exact Or.inr ⟨c, List.mem_cons_self _ _, h⟩
    · exact Or.inr ⟨c', List.mem_cons_of_mem _ hc', hg⟩

theorem run_calls_file_fds (calls : List Call) (w : World) (p : Str) (fd : Int)
    (h : (p, fd) ∈ (run_calls calls w).file_fds) :
    (p, fd) ∈ w.file_fds ∨ ∃ c ∈ calls, c.granted_file p fd := by
  induction calls generalizing w with
  | nil => exact Or.inl h
  | cons c rest ih =>
    simp only [run_calls, List.foldl_cons] at h
    rcases ih (c.run w) h with h | ⟨c', hc', hg⟩
    · rcases call_run_file_fds c w p fd h with h | h
      · exact Or.inl h
      · exact Or.inr ⟨c, List.mem_cons_self _ _, h⟩
    · exact Or.inr ⟨c', List.mem_cons_of_mem _ hc', hg⟩

/-- C7: when the open fails or `apply_rights` fails, `preopen_dir` and
`preopen_file` return false and leave the process state as it was: both
registries unchanged and the set of open descriptors unchanged, the opened
descriptor having been closed. Consequently, after any sequence of preopen
calls from the empty state, every entry of either registry was stored by a
call whose open succeeded and on whose descriptor `apply_rights` returned
success. -/
theorem C7_preopen_atomic_on_failure (sys : Sys) (path : Str) (flags : Int) (rights : Rights)
    (w : World) (calls : List Call) (p : Str) (fd : Int) :
    ((sys.openat path O_DIRECTORY_O_CLOEXEC < 0
        ∨ apply_rights sys (sys.openat path O_DIRECTORY_O_CLOEXEC) rights = false) →
      preopen_dir sys path rights w = (false, w))
    ∧ ((sys.openat path flags < 0
        ∨ apply_rights sys (sys.openat path flags) rights = false) →
      preopen_file sys path flags rights w = (false, w))
    ∧ ((p, fd) ∈ (run_calls calls World.empty).dir_fds → ∃ c ∈ calls, c.granted_dir p fd)
    ∧ ((p, fd) ∈ (run_calls calls World.empty).file_fds →
        ∃ c ∈ calls, c.granted_file p fd) := by
  refine ⟨preopen_dir_failure sys path rights w, preopen_file_failure sys path flags rights w,
    ?_, ?_⟩
  · intro h
    rcases run_calls_dir_fds calls World.empty p fd h with h | h
    · simp [World.empty] at h
    · exact h
  · intro h
    rcases run_calls_file_fds calls World.empty p fd h with h | h
    · simp [World.empty] at h
    · exact h

/-- C7 at a `cap_rights_limit` that fails after a successful open, and at
one-call histories that register `/dev/dri` and `/etc/machine-id`. -/
theorem C7_preopen_atomic_on_failure_witness :
    preopen_dir limit_fails "/dev/dri".toList Rights.GPU dri_world = (false, dri_world)
    ∧ preopen_file limit_fails "/dev/dri".toList 0 Rights.GPU dri_world = (false, dri_world)
    ∧ (∃ c ∈ [Call.dir opens_four "/dev/dri".toList Rights.GPU],
        c.granted_dir "/dev/dri".toList 4)
    ∧ (∃ c ∈ [Call.file opens_four "/etc/machine-id".toList 0 Rights.DataFiles],
        c.granted_file "/etc/machine-id".toList 4) :=
  ⟨(C7_preopen_atomic_on_failure limit_fails "/dev/dri".toList 0 Rights.GPU dri_world
      [] [] 0).1 (Or.inr (by decide)),
   (C7_preopen_atomic_on_failure limit_fails "/dev/dri".toList 0 Rights.GPU dri_world
      [] [] 0).2.1 (Or.inr (by decide)),
   (C7_preopen_atomic_on_failure limit_fails [] 0 Rights.GPU dri_world
      [Call.dir opens_four "/dev/dri".toList Rights.GPU] "/dev/dri".toList 4).2.2.1
      (by decide),
   (C7_preopen_atomic_on_failure limit_fails [] 0 Rights.GPU dri_world
      [Call.file opens_four "/etc/machine-id".toList 0 Rights.DataFiles]
      "/etc/machine-id".toList 4).2.2.2 (by decide)⟩

/-- C8, the code at a failing input: with `/dev/dri` registered as
descriptor 3 and `/etc/machine-id` as descriptor 6, a second `preopen_dir` of
`/dev/dri` (resp. `preopen_file` of `/etc/machine-id`) that opens descriptor 4
returns true, yet the registry still maps the path to the old descriptor, not
to 4, and descriptor 4 stays open without being stored in either registry. -/
theorem C8_reregistration_drops_new_descriptor :
    (map_find dri_world.dir_fds "/dev/dri".toList = some 3
      ∧ opens_four.openat "/dev/dri".toList O_DIRECTORY_O_CLOEXEC = 4
      ∧ (preopen_dir opens_four "/dev/dri".toList Rights.GPU dri_world).1 = true
      ∧ map_find (preopen_dir opens_four "/dev/dri".toList Rights.GPU dri_world).2.dir_fds
          "/dev/dri".toList = some 3
      ∧ map_find (preopen_dir opens_four "/dev/dri".toList Rights.GPU dri_world).2.dir_fds
          "/dev/dri".toList ≠ some 4
      ∧ (preopen_dir opens_four "/dev/dri".toList Rights.GPU dri_world).2.open_fds = [4, 6, 3]
      ∧ (∀ val ∈ (preopen_dir opens_four "/dev/dri".toList Rights.GPU dri_world).2.dir_fds
            ++ (preopen_dir opens_four "/dev/dri".toList Rights.GPU dri_world).2.file_fds,
          val.2 ≠ 4))
    ∧ (map_find dri_world.file_fds "/etc/machine-id".toList = some 6
      ∧ opens_four.openat "/etc/machine-id".toList 0 = 4
      ∧ (preopen_file opens_four "/etc/machine-id".toList 0 Rights.DataFiles dri_world).1 = true
      ∧ map_find
          (preopen_file opens_four "/etc/machine-id".toList 0 Rights.DataFiles dri_world).2.file_fds
          "/etc/machine-id".toList = some 6
      ∧ map_find
          (preopen_file opens_four "/etc/machine-id".toList 0 Rights.DataFiles dri_world).2.file_fds
          "/etc/machine-id".toList ≠ some 4
      ∧ (preopen_file opens_four "/etc/machine-id".toList 0 Rights.DataFiles dri_world).2.open_fds
          = [4, 6, 3]
      ∧ (∀ val ∈
            (preopen_file opens_four "/etc/machine-id".toList 0 Rights.DataFiles dri_world).2.dir_fds
            ++ (preopen_file opens_four "/etc/machine-id".toList 0 Rights.DataFiles
                  dri_world).2.file_fds,
          val.2 ≠ 4)) := by
  decide

/-! ## Restricted-query cache -/

/-- C9, the code at a failing input: with the 8-byte answer of `hw.physmem`
cached and a caller buffer of declared capacity 4, both adapters call
`memcpy` with length 8, which exceeds the capacity 4 and is not `min(4, 8)`;
with no caller buffer they store the cached length 8 in `*oldlenp`. -/
theorem C9_cached_copy_exceeds_capacity :
    sysctl physmem_by_mib (-1) (some [6, 5]) false (some 4) true = SysctlResult.copied 8
    ∧ sysctlbyname physmem_by_name (-1) (some "hw.physmem".toList) false (some 4) true
        = SysctlResult.copied 8
    ∧ min 4 8 < 8
    ∧ sysctl physmem_by_mib (-1) (some [6, 5]) true (some 4) true = SysctlResult.length 8
    ∧ sysctlbyname physmem_by_name (-1) (some "hw.physmem".toList) true (some 4) true
        = SysctlResult.length 8 := by
  decide

/-- C10, the code at a failing input: the pairs `(0x4005, S_IFCHR)` and
`(5, S_IFBLK)` differ and have the same key, so after
`precache_devname(0x4005, S_IFCHR)` the query `devname_r(5, S_IFBLK)`, never
precached, is answered `ttyv5` from the entry of the other pair, where the
real `devname_r` answers `da0`. -/
theorem C10_devname_key_aliases :
    ((0x4005, S_IFCHR) : Nat × Nat) ≠ (5, S_IFBLK)
    ∧ devname_key 0x4005 S_IFCHR = devname_key 5 S_IFBLK
    ∧ (precache_devname 255 [] two_devices 0x4005 S_IFCHR).1 = true
    ∧ devname_r (precache_devname 255 [] two_devices 0x4005 S_IFCHR).2 two_devices
        5 S_IFBLK [] 255 = some "ttyv5".toList
    ∧ two_devices 5 S_IFBLK 255 = some "da0".toList := by
  decide

end Mozcapsicum
